import Mathlib

/-!
Verification of the meeting-summarizer pipeline: a shallow embedding of the
orchestration, merge, concurrency-decision, progress and summarization logic
of `fast_video_app.py`, `src/fast_transcriber.py` and `src/summarizer.py`,
together with proofs of the specified properties.

Python strings are modelled as `List Char` (a Python `str` is a sequence of
code points); Python floats that only ever hold times/percentages are
modelled as `ℚ`.
-/

set_option linter.unusedVariables false

/-- A Python string: a sequence of code points. -/
abbrev PyStr := List Char

/-- Auxiliary recursion for `pysplit`: `acc` holds the chars of the word in
progress, in reverse. -/
def pysplitAux : List Char → List Char → List PyStr
  | [], acc => if acc.isEmpty then [] else [acc.reverse]
  | c :: cs, acc =>
    if c.isWhitespace then
      if acc.isEmpty then pysplitAux cs []
      else acc.reverse :: pysplitAux cs []
    else pysplitAux cs (c :: acc)

/-- Python `str.split()` with no argument: split on runs of whitespace and
drop empty pieces. -/
def pysplit (s : PyStr) : List PyStr := pysplitAux s []

/-- Python `str.strip()`: remove leading and trailing whitespace. -/
def pystrip (s : PyStr) : PyStr :=
  ((s.dropWhile Char.isWhitespace).reverse.dropWhile Char.isWhitespace).reverse

/-- Python `sep.join(parts)`. -/
def joinWith (sep : PyStr) : List PyStr → PyStr
  | [] => []
  | [x] => x
  | x :: xs => x ++ sep ++ joinWith sep xs

/-- Python `" ".join(parts)`. -/
def joinWords : List PyStr → PyStr := joinWith [' ']

/-- Concatenation of a list of lists (kept as a local definition so that all
inductions are over this exact function). -/
def flattenL : List (List α) → List α
  | [] => []
  | l :: ls => l ++ flattenL ls

/-- Python `str.split('.')`: split on every dot, keeping empty pieces, so
the result is always non-empty. -/
def splitOnDot : PyStr → List PyStr
  | [] => [[]]
  | c :: cs =>
    if c = '.' then [] :: splitOnDot cs
    else
      match splitOnDot cs with
      | [] => [[c]]
      | h :: t => (c :: h) :: t

/- ### Summarizer model (`src/summarizer.py`) -/

/-- `summarize` line 95: `target_chunks = max(3, word_limit // 100)`. -/
def target_chunks (word_limit : Nat) : Nat := max 3 (word_limit / 100)

/-- `summarize` line 96:
`max_chunk_length = max(400, transcript_words // target_chunks * 5)`. -/
def max_chunk_length (transcript_words word_limit : Nat) : Nat :=
  max 400 (transcript_words / target_chunks word_limit * 5)

/-- The loop of `_chunk_text` (lines 245-252).  State: `chunks` already
closed (as word lists; Python stores `" ".join(current_chunk)`, which we
apply when the chunk list is consumed), the chunk in progress `cur`
(`current_chunk`) and the running counter `cl` (`current_length`). -/
def chunk_text_go (maxLen : Nat) : List PyStr → List (List PyStr) → List PyStr → Nat →
    List (List PyStr)
  | [], chunks, cur, _ =>
    -- lines 254-255: `if current_chunk: chunks.append(" ".join(current_chunk))`
    if cur.isEmpty then chunks else chunks ++ [cur]
  | w :: ws, chunks, cur, cl =>
    if maxLen < cl + w.length ∧ ¬ cur.isEmpty then
      chunk_text_go maxLen ws (chunks ++ [cur]) [w] w.length
    else
      chunk_text_go maxLen ws chunks (cur ++ [w]) (cl + w.length + 1)

/-- `_chunk_text(text, max_length)` (lines 238-257): greedy split of the
text into chunks of words; `return chunks if chunks else [text]`. -/
def chunk_text (text : PyStr) (maxLen : Nat) : List PyStr :=
  let chunksW := chunk_text_go maxLen (pysplit text) [] [] 0
  let chunks := chunksW.map joinWords
  if chunks.isEmpty then [text] else chunks

/-- The chunking stage of `summarize` (lines 87-98): strip the transcript,
count its words, derive `max_chunk_length` and split.  (The empty-transcript
early return of line 89-90 happens before this stage.) -/
def summarize_chunking (transcript : PyStr) (word_limit : Nat) : List PyStr :=
  let t := pystrip transcript
  chunk_text t (max_chunk_length (pysplit t).length word_limit)

/-- The ellipsis marker appended by `summarize` line 116. -/
def ellipsisMark : PyStr := ['.', '.', '.']

/-- Length enforcement of `summarize` (lines 113-116): if the word count of
the detailed summary exceeds `word_limit * 1.2`, keep the first
`word_limit` words and append `"..."`.  The float literal `1.2` is modelled
by the exact rational `12/10`: for word counts below `2^50` the float
comparison `len > word_limit * 1.2` decides identically (the rounding error
of `word_limit * 1.2` is under half an ulp, and word counts are integers at
distance ≥ 1/5 from `word_limit * 6/5` whenever the two sides differ). -/
def trim_detailed_summary (detailed : PyStr) (word_limit : Nat) : PyStr :=
  let summary_words := pysplit detailed
  if (word_limit : ℚ) * (12 / 10) < (summary_words.length : ℚ) then
    joinWords (summary_words.take word_limit) ++ ellipsisMark
  else detailed

/-- The blank-line separator `"\n\n"` joining chunk summaries (line 110). -/
def blankLineSep : PyStr := ['\n', '\n']

/-- `_extract_key_points` lines 202-204: first sentence of a summary,
stripped (`summary.split('.')[0].strip()`; `split('.')` is never empty, so
the `if sentences:` guard always passes). -/
def first_sentence (summary : PyStr) : PyStr :=
  pystrip ((splitOnDot summary).headD [])

/-- Line 206: `points.append(f"• {point}.")`. -/
def bulletize (point : PyStr) : PyStr := '•' :: ' ' :: (point ++ ['.'])

/-- Line 209: the generic placeholder key point. -/
def defaultKeyPoint : PyStr :=
  "• Key points extracted from the meeting content above.".toList

/-- `_extract_key_points(summaries)` (lines 197-211): keep each summary's
first sentence when longer than 20 chars, bulletize, and join the first 10
with newlines; a single placeholder when nothing qualifies. -/
def extract_key_points (summaries : List PyStr) : PyStr :=
  let points := summaries.filterMap fun summary =>
    let point := first_sentence summary
    if 20 < point.length then some (bulletize point) else none
  if points.isEmpty then defaultKeyPoint
  else joinWith ['\n'] (points.take 10)

/- ### Transcription orchestrator model (`src/fast_transcriber.py`,
`fast_video_app.py`) -/

/-- A recognized speech span within one chunk's result, chunk-relative at
creation.  `stop` renders the Python key `"end"`. -/
structure Seg where
  start : ℚ
  stop : ℚ
  text : PyStr
deriving DecidableEq, Repr

/-- One chunk's transcription result.  Engine results carry `err = none`;
the substitution dict `{"text": "", "segments": [], "error": str(e)}` of
lines 208/219 carries the message in `err` (it has no `"language"` key,
modelled as the empty string, which is falsy exactly like a missing key in
every read the merge performs). -/
structure ChunkRes where
  text : PyStr
  segments : List Seg
  language : PyStr
  err : Option PyStr
deriving DecidableEq, Repr

/-- The merged transcript returned by `transcribe_parallel` (lines 252-257). -/
structure Merged where
  text : PyStr
  segments : List Seg
  language : PyStr
  word_count : Nat
deriving DecidableEq, Repr

/-- Line 227: `detected_language = "unknown"`. -/
def unknownLang : PyStr := "unknown".toList

/-- Line 234: `chunk_duration = 30.0  # Default chunk duration` — a constant,
independent of the duration used at segmentation time. -/
def chunk_duration : ℚ := 30

/-- Lines 238-242: shift one segment by the chunk's time offset. -/
def offset_seg (off : ℚ) (s : Seg) : Seg :=
  { start := s.start + off, stop := s.stop + off, text := s.text }

/-- Lines 244-245: adopt the chunk's language if it is truthy and no
language has been detected yet. -/
def update_language (detected lang : PyStr) : PyStr :=
  if ¬ lang.isEmpty ∧ detected = unknownLang then lang else detected

/-- The merge loop of `transcribe_parallel` (lines 229-245):
`for idx, result in enumerate(all_results)`, skipping results with falsy
text, appending texts and offset segments and tracking the language.
Accumulator: `(combined_text, combined_segments, detected_language)`. -/
def merge_go : Nat → List ChunkRes → List PyStr × List Seg × PyStr →
    List PyStr × List Seg × PyStr
  | _, [], acc => acc
  | idx, r :: rs, (ct, cs, lang) =>
    if ¬ r.text.isEmpty then
      merge_go (idx + 1) rs
        (ct ++ [r.text],
         cs ++ r.segments.map (offset_seg ((idx : ℚ) * chunk_duration)),
         update_language lang r.language)
    else merge_go (idx + 1) rs (ct, cs, lang)

/-- Lines 224-257: combine all chunk results in index order into the final
dictionary (`full_transcript = " ".join(combined_text)`,
`word_count = len(full_transcript.split())`). -/
def merge_results (all_results : List ChunkRes) : Merged :=
  let acc := merge_go 0 all_results ([], [], unknownLang)
  let full_transcript := joinWords acc.1
  { text := full_transcript
    segments := acc.2.1
    language := acc.2.2
    word_count := (pysplit full_transcript).length }

/-- The per-chunk texts a result list contributes to `combined_text`. -/
def contrib_texts (rs : List ChunkRes) : List PyStr :=
  (rs.filter fun r => ¬ r.text.isEmpty).map (·.text)

/-- The segments a result list starting at chunk index `idx` contributes to
`combined_segments`. -/
def contrib_segs : Nat → List ChunkRes → List Seg
  | _, [] => []
  | idx, r :: rs =>
    (if ¬ r.text.isEmpty then r.segments.map (offset_seg ((idx : ℚ) * chunk_duration))
     else []) ++ contrib_segs (idx + 1) rs

/-- Per-chunk failure substitution (lines 207-208 and 218-219):
`{"text": "", "segments": [], "error": str(e)}`. -/
def subst_result : Except PyStr ChunkRes → ChunkRes
  | .ok r => r
  | .error e => { text := [], segments := [], language := [], err := some e }

/-- The cooperative stop flag.  `cancelAt = some t` means the request
arrives between the (t-1)-th and the t-th cancellation checkpoint, so the
flag reads true at every checkpoint `j ≥ t` (`fast_video_app.py` lines
450-455 and 473-475: `check_stop` raises `InterruptedError` when
`stop_requested` is set; it runs inside the progress callback,
line 545). -/
def is_cancelled (cancelAt : Option Nat) (j : Nat) : Bool :=
  match cancelAt with
  | none => false
  | some t => decide (t ≤ j)

/-- Terminal outcome of a `transcribe_parallel` call: the returned merged
dictionary, or the propagated `InterruptedError` cancellation signal. -/
inductive TOutcome where
  | finished (m : Merged)
  | cancelled
deriving DecidableEq

/-- What a transcription run did: which chunk indices were handed to the
engine, the `all_results` list, and the terminal outcome. -/
structure RunTrace where
  dispatched : List Nat
  results : List ChunkRes
  outcome : TOutcome

/-- The sequential branch of `transcribe_parallel` (lines 209-222) under
the app's progress callback.  Checkpoint `i < n` is the callback
`"Transcribed {i}/{n}"` issued before dispatching chunk `i` (lines
212-213); checkpoint `n` is the final callback of lines 221-222.  A raised
`InterruptedError` propagates (it is outside the per-chunk `try`). -/
def seq_go (engine : Nat → Except PyStr ChunkRes) (cancelAt : Option Nat) (n : Nat)
    (i : Nat) (disp : List Nat) (acc : List ChunkRes) : RunTrace :=
  if i < n then
    if is_cancelled cancelAt i then ⟨disp, acc, .cancelled⟩
    else
      seq_go engine cancelAt n (i + 1) (disp ++ [i]) (acc ++ [subst_result (engine i)])
  else
    if is_cancelled cancelAt n then ⟨disp, acc, .cancelled⟩
    else ⟨disp, acc, .finished (merge_results acc)⟩
termination_by n - i

/-- Sequential-mode transcription of `n` chunks. -/
def transcribe_sequential_mode (engine : Nat → Except PyStr ChunkRes)
    (cancelAt : Option Nat) (n : Nat) : RunTrace :=
  seq_go engine cancelAt n 0 [] []

/-- Position of chunk `c` in the completion order (0-based). -/
def pos_of : List Nat → Nat → Nat
  | [], _ => 0
  | x :: xs, c => if x = c then 0 else pos_of xs c + 1

/-- The parallel branch of `transcribe_parallel` (lines 185-222).  All
futures are submitted up front (line 201), so every chunk is dispatched to
the engine unconditionally; `process_chunk` runs the engine first and only
then, under the lock, invokes the progress callback (lines 191-197), whose
`check_stop` raises when the flag is set.  Exceptions — engine failures and
the callback's `InterruptedError` alike — are captured per future and
substituted by an empty error result (lines 203-208); `all_results` is
collected in submission (= index) order.  The final callback of lines
221-222 then re-raises the cancellation.  Cancellation checkpoints are
numbered by completion events: the chunk completing `j`-th (given by
`order`) checks at checkpoint `j`, and the final callback checks at
checkpoint `n + 1`. -/
def transcribe_parallel_mode (engine : Nat → Except PyStr ChunkRes) (n : Nat)
    (order : List Nat) (cancelAt : Option Nat) : RunTrace :=
  let all_results := (List.range n).map fun c =>
    match engine c with
    | .error e => subst_result (.error e)
    | .ok r =>
      if is_cancelled cancelAt (pos_of order c + 1) then
        subst_result (.error "Processing stopped by user".toList)
      else r
  { dispatched := List.range n
    results := all_results
    outcome :=
      if is_cancelled cancelAt (n + 1) then .cancelled
      else .finished (merge_results all_results) }

/-- Chunks already started when a cancellation request arriving just before
completion checkpoint `t` is made: the pool (`ThreadPoolExecutor`, `w`
workers) starts tasks in submission order, so at most `(t - 1) + w` tasks —
the first ones — have started by then. -/
def started_before_request (w t n : Nat) : List Nat :=
  List.range (min n (t - 1 + w))

/- ### Concurrency decision (`fast_transcriber.py` lines 139-177) -/

/-- The per-job concurrency decision. -/
inductive ConcurrencyDecision where
  | Sequential
  | Parallel (workers : Nat)
deriving DecidableEq, Repr

/-- `_should_use_parallel` (lines 148-156): `cpu_usage < 70.0`. -/
def should_use_parallel (cpu_usage : ℚ) : Bool := decide (cpu_usage < 70)

/-- Line 177 (`use_parallel = self._should_use_parallel() and
self.num_workers > 1`) together with line 199 (the pool size is
`self.num_workers`): the decision for one job. -/
def decide_mode (cpu_usage : ℚ) (num_workers : Nat) : ConcurrencyDecision :=
  if should_use_parallel cpu_usage && decide (1 < num_workers) then
    .Parallel num_workers
  else .Sequential

/- ### Progress model (`fast_video_app.py` lines 477-586, 527-545) -/

/-- `transcribe_progress` (lines 531-543): a message `"Transcribed c/n ..."`
is mapped to `int(15 + (c / n) * 55)` (base 15, range 55).  Exact for
rational arithmetic; the float evaluation computes the same monotone
function of `c`. -/
def chunk_pct (c n : Nat) : Nat := 15 + 55 * c / n

/-- Completion counter of the parallel branch (lines 188-197): each event
is a task completion; successful tasks increment `completed_count` under
the lock and report it, failing tasks raise before the counter update and
report nothing. -/
def par_counts : List Bool → Nat → List Nat
  | [], _ => []
  | b :: bs, c => if b then (c + 1) :: par_counts bs (c + 1) else par_counts bs c

/-- All derived progress-bar values of one successful job in sequential
mode, in emission order: the phase values 2, 5, 10, 15 (lines 479-521), the
per-chunk callbacks `"Transcribed i/n"` for `i = 0..n-1` (lines 211-213),
the final `"Transcribed n/n"` (lines 221-222), then 70, 75, 85, 100 (lines
555-586). -/
def seq_progress_list (n : Nat) : List Nat :=
  [2, 5, 10, 15] ++ (List.range n).map (fun i => chunk_pct i n) ++
    (chunk_pct n n :: [70, 75, 85, 100])

/-- All derived progress-bar values of one successful job in parallel mode,
for completion events `events` (`true` = task succeeded and reported the
incremented counter). -/
def par_progress_list (n : Nat) (events : List Bool) : List Nat :=
  [2, 5, 10, 15] ++ (par_counts events 0).map (fun c => chunk_pct c n) ++
    (chunk_pct n n :: [70, 75, 85, 100])

/- ### Concrete sample inputs used by witnesses and counterexamples -/

/-- A predicate for words: no whitespace characters inside. -/
def WSFree (w : PyStr) : Prop := ∀ c ∈ w, c.isWhitespace = false

/-- A sample successful chunk result. -/
def sampleRes : ChunkRes := ⟨['h', 'i'], [⟨0, 1, ['h', 'i']⟩], ['e', 'n'], none⟩

/-- An engine that succeeds on every chunk. -/
def sampleEngine : Nat → Except PyStr ChunkRes := fun _ => .ok sampleRes

/-- An engine that raises on chunk 2 and succeeds elsewhere. -/
def failAtTwo : Nat → Except PyStr ChunkRes := fun c =>
  if c = 2 then .error "boom".toList else .ok sampleRes

/-- A chunk result with falsy text (skipped by the merge). -/
def silentRes : ChunkRes := ⟨[], [], "en".toList, none⟩

/-- A chunk summary whose first sentence is longer than 20 characters. -/
def qualSummary : PyStr :=
  "This opening sentence is long enough to qualify. Extra tail.".toList

/-- Fifteen qualifying chunk summaries. -/
def fifteenSummaries : List PyStr := List.replicate 15 qualSummary

/-- A transcript that is a single 401-character word. -/
def cexTranscript : PyStr := List.replicate 401 'a'

/- ### Lemmas about joins and flattening -/

theorem flattenL_append (l₁ l₂ : List (List α)) :
    flattenL (l₁ ++ l₂) = flattenL l₁ ++ flattenL l₂ := by
  induction l₁ with
  | nil => rfl
  | cons h t ih => simp [flattenL, ih]

theorem mem_flattenL {a : α} {c : List α} {ls : List (List α)}
    (hc : c ∈ ls) (ha : a ∈ c) : a ∈ flattenL ls := by
  induction ls with
  | nil => cases hc
  | cons h t ih =>
    rcases List.mem_cons.mp hc with rfl | hc'
    · exact List.mem_append.mpr (Or.inl ha)
    · exact List.mem_append.mpr (Or.inr (ih hc'))

theorem joinWords_cons (w x : PyStr) (xs : List PyStr) :
    joinWords (w :: x :: xs) = w ++ ' ' :: joinWords (x :: xs) := by
  show (w ++ [' ']) ++ joinWith [' '] (x :: xs) = w ++ ' ' :: joinWith [' '] (x :: xs)
  simp

theorem joinWords_append (a b : List PyStr) (ha : a ≠ []) (hb : b ≠ []) :
    joinWords (a ++ b) = joinWords a ++ ' ' :: joinWords b := by
  induction a with
  | nil => exact absurd rfl ha
  | cons x xs ih =>
    cases xs with
    | nil =>
      cases b with
      | nil => exact absurd rfl hb
      | cons y ys =>
        rw [show [x] ++ y :: ys = x :: y :: ys from rfl, joinWords_cons]
        rfl
    | cons x' xs' =>
      have h := ih (by simp)
      simp only [List.cons_append] at h ⊢
      rw [joinWords_cons x x' (xs' ++ b), h, joinWords_cons]
      simp

theorem joinWords_map_joinWords (cw : List (List PyStr)) (h : ∀ c ∈ cw, c ≠ []) :
    joinWords (cw.map joinWords) = joinWords (flattenL cw) := by
  induction cw with
  | nil => rfl
  | cons c cs ih =>
    cases cs with
    | nil =>
      show joinWords [joinWords c] = joinWords (flattenL [c])
      rw [show flattenL [c] = c ++ [] from rfl, List.append_nil]
      rfl
    | cons c' cs' =>
      have hc : c ≠ [] := h c (by simp)
      have hflat : flattenL (c' :: cs') ≠ [] := by
        have hc' : c' ≠ [] := h c' (by simp)
        cases c' with
        | nil => exact absurd rfl hc'
        | cons a as => simp [flattenL]
      have hrec := ih (fun x hx => h x (List.mem_cons_of_mem c hx))
      rw [show flattenL (c :: c' :: cs') = c ++ flattenL (c' :: cs') from rfl,
        joinWords_append c _ hc hflat, ← hrec,
        show List.map joinWords (c :: c' :: cs')
          = joinWords c :: joinWords c' :: List.map joinWords cs' from rfl,
        joinWords_cons]
      rfl

/- ### Lemmas about `pysplit` -/

theorem pysplitAux_word (w : PyStr) (hw : WSFree w) :
    ∀ (s : List Char) (acc : List Char),
      pysplitAux (w ++ s) acc = pysplitAux s (w.reverse ++ acc) := by
  induction w with
  | nil => intro s acc; simp
  | cons c cs ih =>
    intro s acc
    have hc : c.isWhitespace = false := hw c (by simp)
    have hcs : WSFree cs := fun x hx => hw x (List.mem_cons_of_mem c hx)
    rw [List.cons_append, pysplitAux, hc]
    simp only [Bool.false_eq_true, if_false]
    rw [ih hcs s (c :: acc)]
    simp

theorem pysplitAux_space (s : List Char) (acc : List Char) (hacc : acc ≠ []) :
    pysplitAux (' ' :: s) acc = acc.reverse :: pysplitAux s [] := by
  rw [pysplitAux]
  have : (' ' : Char).isWhitespace = true := by decide
  rw [this]
  simp [List.isEmpty_iff, hacc]

theorem pysplit_joinWords (ws : List PyStr)
    (h : ∀ w ∈ ws, w ≠ [] ∧ WSFree w) : pysplit (joinWords ws) = ws := by
  induction ws with
  | nil => rfl
  | cons w ws' ih =>
    obtain ⟨hw, hwf⟩ := h w (by simp)
    cases ws' with
    | nil =>
      show pysplitAux w [] = [w]
      have := pysplitAux_word w hwf [] []
      simp only [List.append_nil] at this
      rw [this, pysplitAux]
      simp [List.isEmpty_iff, hw]
    | cons x xs =>
      rw [joinWords_cons]
      show pysplitAux (w ++ ' ' :: joinWords (x :: xs)) [] = w :: x :: xs
      rw [pysplitAux_word w hwf _ [], List.append_nil,
        pysplitAux_space _ _ (by simp [hw]), List.reverse_reverse]
      exact congrArg (w :: ·) (ih (fun v hv => h v (List.mem_cons_of_mem w hv)))

theorem pysplitAux_mem (s : List Char) :
    ∀ (acc : List Char), WSFree acc →
      ∀ w ∈ pysplitAux s acc, w ≠ [] ∧ WSFree w := by
  induction s with
  | nil =>
    intro acc hacc w hw
    rw [pysplitAux] at hw
    by_cases h : acc.isEmpty
    · simp [h] at hw
    · simp [h] at hw
      subst hw
      refine ⟨by simpa [List.isEmpty_iff] using h, fun c hc => hacc c ?_⟩
      simpa using hc
  | cons c cs ih =>
    intro acc hacc w hw
    rw [pysplitAux] at hw
    by_cases hc : c.isWhitespace
    · rw [if_pos hc] at hw
      by_cases hacc' : acc.isEmpty
      · rw [if_pos hacc'] at hw
        exact ih [] (fun x hx => by cases hx) w hw
      · rw [if_neg hacc'] at hw
        rcases List.mem_cons.mp hw with rfl | hw'
        · refine ⟨by simpa [List.isEmpty_iff] using hacc', fun x hx => hacc x ?_⟩
          simpa using hx
        · exact ih [] (fun x hx => by cases hx) w hw'
    · rw [if_neg hc] at hw
      refine ih (c :: acc) ?_ w hw
      intro x hx
      rcases List.mem_cons.mp hx with rfl | hx'
      · exact Bool.eq_false_iff.mpr hc
      · exact hacc x hx'

theorem pysplit_mem (s : PyStr) : ∀ w ∈ pysplit s, w ≠ [] ∧ WSFree w :=
  pysplitAux_mem s [] (fun x hx => by cases hx)

theorem pysplitAux_eq_nil (s : List Char) :
    ∀ (acc : List Char), pysplitAux s acc = [] →
      acc = [] ∧ ∀ c ∈ s, c.isWhitespace = true := by
  induction s with
  | nil =>
    intro acc h
    rw [pysplitAux] at h
    by_cases hacc : acc.isEmpty
    · exact ⟨List.isEmpty_iff.mp hacc, by simp⟩
    · simp [hacc] at h
  | cons c cs ih =>
    intro acc h
    rw [pysplitAux] at h
    by_cases hc : c.isWhitespace
    · rw [if_pos hc] at h
      by_cases hacc : acc.isEmpty
      · rw [if_pos hacc] at h
        obtain ⟨-, hall⟩ := ih [] h
        refine ⟨List.isEmpty_iff.mp hacc, fun x hx => ?_⟩
        rcases List.mem_cons.mp hx with rfl | hx'
        · exact hc
        · exact hall x hx'
      · simp [hacc] at h
    · rw [if_neg hc] at h
      obtain ⟨habs, -⟩ := ih (c :: acc) h
      cases habs

/- ### Lemmas about `chunk_text` -/

theorem chunk_text_go_flatten (maxLen : Nat) (ws : List PyStr) :
    ∀ (chunks : List (List PyStr)) (cur : List PyStr) (cl : Nat),
      flattenL (chunk_text_go maxLen ws chunks cur cl) = flattenL chunks ++ cur ++ ws := by
  induction ws with
  | nil =>
    intro chunks cur cl
    rw [chunk_text_go]
    by_cases h : cur.isEmpty
    · simp [h, List.isEmpty_iff.mp h]
    · simp [h, flattenL_append, flattenL]
  | cons w ws' ih =>
    intro chunks cur cl
    rw [chunk_text_go]
    by_cases h : maxLen < cl + w.length ∧ ¬ cur.isEmpty
    · rw [if_pos h, ih]
      simp [flattenL_append, flattenL]
    · rw [if_neg h, ih]
      simp

theorem chunk_text_go_ne_nil (maxLen : Nat) (ws : List PyStr) :
    ∀ (chunks : List (List PyStr)) (cur : List PyStr) (cl : Nat),
      (∀ c ∈ chunks, c ≠ []) →
      ∀ c ∈ chunk_text_go maxLen ws chunks cur cl, c ≠ [] := by
  induction ws with
  | nil =>
    intro chunks cur cl hchunks c hc
    rw [chunk_text_go] at hc
    by_cases h : cur.isEmpty
    · rw [if_pos h] at hc
      exact hchunks c hc
    · rw [if_neg h] at hc
      rcases List.mem_append.mp hc with hc' | hc'
      · exact hchunks c hc'
      · have : c = cur := by simpa using hc'
        subst this
        simpa [List.isEmpty_iff] using h
  | cons w ws' ih =>
    intro chunks cur cl hchunks c hc
    rw [chunk_text_go] at hc
    by_cases h : maxLen < cl + w.length ∧ ¬ cur.isEmpty
    · rw [if_pos h] at hc
      refine ih _ _ _ ?_ c hc
      intro d hd
      rcases List.mem_append.mp hd with hd' | hd'
      · exact hchunks d hd'
      · have : d = cur := by simpa using hd'
        subst this
        simpa [List.isEmpty_iff] using h.2
    · rw [if_neg h] at hc
      exact ih _ _ _ hchunks c hc

theorem chunk_text_go_bound (maxLen : Nat) (ws : List PyStr) :
    ∀ (chunks : List (List PyStr)) (cur : List PyStr) (cl : Nat),
      (∀ c ∈ chunks, c.length = 1 ∨ (joinWords c).length ≤ maxLen + 1) →
      (cur ≠ [] → (joinWords cur).length ≤ cl ∧
        (cur.length = 1 ∨ (joinWords cur).length ≤ maxLen + 1)) →
      ∀ c ∈ chunk_text_go maxLen ws chunks cur cl,
        c.length = 1 ∨ (joinWords c).length ≤ maxLen + 1 := by
  induction ws with
  | nil =>
    intro chunks cur cl hchunks hcur c hc
    rw [chunk_text_go] at hc
    by_cases h : cur.isEmpty
    · rw [if_pos h] at hc
      exact hchunks c hc
    · rw [if_neg h] at hc
      rcases List.mem_append.mp hc with hc' | hc'
      · exact hchunks c hc'
      · have : c = cur := by simpa using hc'
        subst this
        exact (hcur (by simpa [List.isEmpty_iff] using h)).2
  | cons w ws' ih =>
    intro chunks cur cl hchunks hcur c hc
    rw [chunk_text_go] at hc
    by_cases h : maxLen < cl + w.length ∧ ¬ cur.isEmpty
    · rw [if_pos h] at hc
      refine ih _ _ _ ?_ ?_ c hc
      · intro d hd
        rcases List.mem_append.mp hd with hd' | hd'
        · exact hchunks d hd'
        · have : d = cur := by simpa using hd'
          subst this
          exact (hcur (by simpa [List.isEmpty_iff] using h.2)).2
      · intro _
        exact ⟨le_refl _, Or.inl rfl⟩
    · rw [if_neg h] at hc
      refine ih _ _ _ hchunks ?_ c hc
      intro _
      cases hcur0 : cur with
      | nil =>
        refine ⟨?_, Or.inl rfl⟩
        show (joinWords [w]).length ≤ cl + w.length + 1
        show w.length ≤ cl + w.length + 1
        omega
      | cons x xs =>
        have hlt : ¬ maxLen < cl + w.length := fun hl => h ⟨hl, by rw [hcur0]; simp⟩
        obtain ⟨hle, -⟩ := hcur (by simp [hcur0])
        rw [hcur0] at hle
        have hjoin : joinWords ((x :: xs) ++ [w]) = joinWords (x :: xs) ++ ' ' :: joinWords [w] :=
          joinWords_append _ _ (by simp) (by simp)
        have hw : joinWords [w] = w := rfl
        have hlen : (joinWords ((x :: xs) ++ [w])).length
            = (joinWords (x :: xs)).length + 1 + w.length := by
          rw [hjoin, hw]
          simp
          omega
        constructor
        · rw [hlen]; omega
        · right; rw [hlen]; omega

/- ### Lemmas about the merge step -/

theorem is_cancelled_none (j : Nat) : is_cancelled none j = false := rfl

theorem contrib_texts_nil : contrib_texts [] = [] := rfl

theorem contrib_texts_cons (r : ChunkRes) (rs : List ChunkRes) :
    contrib_texts (r :: rs)
      = (if r.text = [] then [] else [r.text]) ++ contrib_texts rs := by
  rw [contrib_texts, contrib_texts, List.filter_cons]
  by_cases h : r.text = []
  · simp [h]
  · simp [h]

theorem contrib_segs_cons (idx : Nat) (r : ChunkRes) (rs : List ChunkRes) :
    contrib_segs idx (r :: rs)
      = (if r.text = [] then []
         else r.segments.map (offset_seg ((idx : ℚ) * chunk_duration)))
        ++ contrib_segs (idx + 1) rs := by
  rw [contrib_segs]
  by_cases h : r.text = []
  · simp [h]
  · simp [h]

theorem merge_go_spec (rs : List ChunkRes) :
    ∀ (idx : Nat) (ct : List PyStr) (cs : List Seg) (lang : PyStr),
      (merge_go idx rs (ct, cs, lang)).1 = ct ++ contrib_texts rs ∧
      (merge_go idx rs (ct, cs, lang)).2.1 = cs ++ contrib_segs idx rs := by
  induction rs with
  | nil =>
    intro idx ct cs lang
    simp [merge_go, contrib_texts, contrib_segs]
  | cons r rs' ih =>
    intro idx ct cs lang
    rw [merge_go, contrib_texts_cons, contrib_segs_cons]
    by_cases h : r.text = []
    · have hemp : r.text.isEmpty := List.isEmpty_iff.mpr h
      rw [if_neg (by simp [hemp]), if_pos h, if_pos h]
      obtain ⟨h1, h2⟩ := ih (idx + 1) ct cs lang
      exact ⟨by rw [h1]; simp, by rw [h2]; simp⟩
    · have hemp : ¬ r.text.isEmpty := by simp [List.isEmpty_iff, h]
      rw [if_pos hemp, if_neg h, if_neg h]
      obtain ⟨h1, h2⟩ := ih (idx + 1) (ct ++ [r.text])
        (cs ++ r.segments.map (offset_seg ((idx : ℚ) * chunk_duration)))
        (update_language lang r.language)
      exact ⟨by rw [h1]; simp, by rw [h2]; simp⟩

theorem merge_results_text (rs : List ChunkRes) :
    (merge_results rs).text = joinWords (contrib_texts rs) := by
  show joinWords (merge_go 0 rs ([], [], unknownLang)).1 = _
  rw [(merge_go_spec rs 0 [] [] unknownLang).1]
  rfl

theorem merge_results_segments (rs : List ChunkRes) :
    (merge_results rs).segments = contrib_segs 0 rs := by
  show (merge_go 0 rs ([], [], unknownLang)).2.1 = _
  rw [(merge_go_spec rs 0 [] [] unknownLang).2]
  rfl

theorem contrib_texts_map_range' (g : Nat → ChunkRes) :
    ∀ (k s : Nat),
      contrib_texts ((List.range' s k).map g)
        = ((List.range' s k).filter (fun j => !(g j).text.isEmpty)).map
            (fun j => (g j).text) := by
  intro k
  induction k with
  | zero => intro s; rfl
  | succ k ih =>
    intro s
    rw [List.range'_succ, List.map_cons, contrib_texts_cons, List.filter_cons, ih (s + 1)]
    by_cases h : (g s).text = []
    · simp [h, List.isEmpty_iff]
    · simp [h, List.isEmpty_iff]

theorem contrib_segs_map_range' (g : Nat → ChunkRes) :
    ∀ (k s : Nat),
      contrib_segs s ((List.range' s k).map g)
        = flattenL (((List.range' s k).filter (fun j => !(g j).text.isEmpty)).map
            (fun j => (g j).segments.map (offset_seg ((j : ℚ) * chunk_duration)))) := by
  intro k
  induction k with
  | zero => intro s; rfl
  | succ k ih =>
    intro s
    rw [List.range'_succ, List.map_cons, contrib_segs_cons, List.filter_cons, ih (s + 1)]
    by_cases h : (g s).text = []
    · simp [h, List.isEmpty_iff]
    · simp [h, List.isEmpty_iff, flattenL]

/- ### Lemmas about the orchestrator runs -/

theorem seq_go_none (engine : Nat → Except PyStr ChunkRes) (n : Nat) :
    ∀ (k i : Nat) (disp : List Nat) (acc : List ChunkRes), i + k = n →
      seq_go engine none n i disp acc
        = ⟨disp ++ List.range' i k,
           acc ++ (List.range' i k).map (fun j => subst_result (engine j)),
           .finished (merge_results
             (acc ++ (List.range' i k).map (fun j => subst_result (engine j))))⟩ := by
  intro k
  induction k with
  | zero =>
    intro i disp acc hi
    rw [seq_go]
    have : ¬ i < n := by omega
    simp [this, is_cancelled]
  | succ k ih =>
    intro i disp acc hi
    rw [seq_go]
    have hlt : i < n := by omega
    rw [if_pos hlt, is_cancelled_none]
    simp only [Bool.false_eq_true, if_false]
    rw [ih (i + 1) (disp ++ [i]) (acc ++ [subst_result (engine i)]) (by omega),
      List.range'_succ]
    simp

theorem transcribe_sequential_none (engine : Nat → Except PyStr ChunkRes) (n : Nat) :
    transcribe_sequential_mode engine none n
      = ⟨List.range n,
         (List.range n).map (fun j => subst_result (engine j)),
         .finished (merge_results ((List.range n).map (fun j => subst_result (engine j))))⟩ := by
  show seq_go engine none n 0 [] [] = _
  rw [seq_go_none engine n n 0 [] [] (by omega)]
  simp [List.range_eq_range']

theorem seq_go_cancel (engine : Nat → Except PyStr ChunkRes) (n t : Nat) (ht : t ≤ n) :
    ∀ (k i : Nat) (disp : List Nat) (acc : List ChunkRes), i + k = t →
      (seq_go engine (some t) n i disp acc).dispatched = disp ++ List.range' i k ∧
      (seq_go engine (some t) n i disp acc).outcome = .cancelled := by
  intro k
  induction k with
  | zero =>
    intro i disp acc hi
    rw [seq_go]
    by_cases hlt : i < n
    · have hcc : is_cancelled (some t) i = true := by
        simp only [is_cancelled, decide_eq_true_eq]
        omega
      simp [hlt, hcc]
    · have hcc : is_cancelled (some t) n = true := by
        simp only [is_cancelled, decide_eq_true_eq]
        omega
      simp [hlt, hcc]
  | succ k ih =>
    intro i disp acc hi
    rw [seq_go]
    have hlt : i < n := by omega
    have hnc : is_cancelled (some t) i = false := by
      simp only [is_cancelled, decide_eq_false_iff_not]
      omega
    rw [if_pos hlt, hnc]
    simp only [Bool.false_eq_true, if_false]
    obtain ⟨h1, h2⟩ := ih (i + 1) (disp ++ [i]) (acc ++ [subst_result (engine i)]) (by omega)
    refine ⟨?_, h2⟩
    rw [h1, List.range'_succ]
    simp

theorem transcribe_parallel_none (engine : Nat → Except PyStr ChunkRes) (n : Nat)
    (order : List Nat) :
    transcribe_parallel_mode engine n order none
      = ⟨List.range n,
         (List.range n).map (fun j => subst_result (engine j)),
         .finished (merge_results ((List.range n).map (fun j => subst_result (engine j))))⟩ := by
  have hmap : ((List.range n).map fun c =>
      match engine c with
      | .error e => subst_result (.error e)
      | .ok r =>
        if is_cancelled none (pos_of order c + 1) then
          subst_result (.error "Processing stopped by user".toList)
        else r)
      = (List.range n).map (fun j => subst_result (engine j)) := by
    refine List.map_congr_left fun c _ => ?_
    cases h : engine c
    · rfl
    · simp [is_cancelled, subst_result]
  simp only [transcribe_parallel_mode]
  rw [hmap]
  simp [is_cancelled_none]

/- ### Lemmas about progress values -/

theorem chunk_pct_mono {c c' : Nat} (n : Nat) (h : c ≤ c') :
    chunk_pct c n ≤ chunk_pct c' n :=
  Nat.add_le_add_left (Nat.div_le_div_right (Nat.mul_le_mul_left 55 h)) 15

theorem chunk_pct_ge_15 (c n : Nat) : 15 ≤ chunk_pct c n := Nat.le_add_right 15 _

theorem chunk_pct_self (n : Nat) (hn : 0 < n) : chunk_pct n n = 70 := by
  rw [chunk_pct, Nat.mul_div_cancel _ hn]

theorem par_counts_mem (events : List Bool) :
    ∀ (c : Nat), ∀ k ∈ par_counts events c, c < k ∧ k ≤ c + events.length := by
  induction events with
  | nil => intro c k hk; cases hk
  | cons b bs ih =>
    intro c k hk
    rw [par_counts] at hk
    by_cases hb : b = true
    · rw [if_pos hb] at hk
      rcases List.mem_cons.mp hk with rfl | hk'
      · simp
      · have := ih (c + 1) k hk'
        constructor <;> [omega; (simp only [List.length_cons]; omega)]
    · rw [if_neg hb] at hk
      have := ih c k hk
      constructor <;> [omega; (simp only [List.length_cons]; omega)]

theorem par_counts_chain (events : List Bool) :
    ∀ (c : Nat), List.Chain' (· ≤ ·) (par_counts events c) := by
  induction events with
  | nil => intro c; exact List.chain'_nil
  | cons b bs ih =>
    intro c
    rw [par_counts]
    by_cases hb : b = true
    · rw [if_pos hb]
      refine List.chain'_cons'.mpr ⟨?_, ih (c + 1)⟩
      intro y hy
      have hmem : y ∈ par_counts bs (c + 1) := by
        cases hpc : par_counts bs (c + 1) with
        | nil => rw [hpc] at hy; cases hy
        | cons z zs => rw [hpc] at hy; simp at hy; simp [hpc, hy]
      exact le_of_lt (par_counts_mem bs (c + 1) y hmem).1
    · rw [if_neg hb]
      exact ih c

theorem chain_le_glue (l rest : List Nat) :
    ∀ (a b : Nat), List.Chain' (· ≤ ·) l →
      (∀ k ∈ l, k ≤ b) → a ≤ b → (∀ y ∈ l.head?, a ≤ y) →
      List.Chain' (· ≤ ·) (b :: rest) →
      List.Chain' (· ≤ ·) (a :: (l ++ b :: rest)) := by
  induction l with
  | nil => intro a b _ _ hab _ hrest; exact List.Chain'.cons hab hrest
  | cons x xs ih =>
    intro a b hl hmem hab hhead hrest
    refine List.Chain'.cons (hhead x rfl) ?_
    exact ih x b hl.tail (fun k hk => hmem k (by simp [hk])) (hmem x (by simp))
      (List.chain'_cons'.mp hl).1 hrest

/- ### Other small lemmas -/

theorem trim_condition (wl L : Nat) :
    ((wl : ℚ) * (12 / 10) < (L : ℚ)) ↔ 6 * wl < 5 * L := by
  rw [show ((wl : ℚ) * (12 / 10)) = (12 * wl : ℚ) / 10 by ring,
    div_lt_iff₀ (by norm_num : (0 : ℚ) < 10)]
  constructor
  · intro h
    have h' : 12 * wl < L * 10 := by exact_mod_cast h
    omega
  · intro h
    have h' : 12 * wl < L * 10 := by omega
    exact_mod_cast h'

theorem key_points_filterMap (summaries : List PyStr) :
    (summaries.filterMap fun summary =>
      let point := first_sentence summary
      if 20 < point.length then some (bulletize point) else none)
    = (summaries.filter fun s => decide (20 < (first_sentence s).length)).map
        (fun s => bulletize (first_sentence s)) := by
  induction summaries with
  | nil => rfl
  | cons x xs ih =>
    rw [List.filterMap_cons, List.filter_cons]
    by_cases h : 20 < (first_sentence x).length
    · simp [h, ih]
    · simp [h, ih]

/- ### Claim theorems -/

/-- C4: for every requested worker count ≥ 1 and every sampled CPU
utilization value, the decision is `Parallel` with the requested worker
count iff utilization is strictly below 70 and more than one worker was
requested; otherwise it is `Sequential`; in particular utilization exactly
70 selects `Sequential`. -/
theorem C4_decision (cpu : ℚ) (w : Nat) (hw : 1 ≤ w) :
    (decide_mode cpu w = .Parallel w ↔ cpu < 70 ∧ 1 < w) ∧
    decide_mode (70 : ℚ) w = .Sequential := by
  refine ⟨⟨?_, ?_⟩, ?_⟩
  · intro h
    rw [decide_mode] at h
    by_cases hc : (should_use_parallel cpu && decide (1 < w)) = true
    · simp only [should_use_parallel, Bool.and_eq_true, decide_eq_true_eq] at hc
      exact hc
    · rw [if_neg hc] at h
      exact absurd h (by simp)
  · intro h
    rw [decide_mode, if_pos]
    simp only [should_use_parallel, Bool.and_eq_true, decide_eq_true_eq]
    exact h
  · rw [decide_mode, if_neg]
    simp [should_use_parallel]

/-- Witness for C4: with 50% utilization and 4 requested workers the
decision is `Parallel 4`; at exactly 70% it is `Sequential`. -/
theorem C4_witness :
    decide_mode 50 4 = .Parallel 4 ∧ decide_mode (70 : ℚ) 4 = .Sequential :=
  ⟨(C4_decision 50 4 (by norm_num)).1.mpr ⟨by norm_num, by norm_num⟩,
   (C4_decision 70 4 (by norm_num)).2⟩

/-- C3: for every engine behaviour and every interleaving of parallel task
completions, parallel-mode transcription produces exactly the outcome of
sequential-mode transcription on the same chunks — the same merged text,
segment order and language — because results are collected in submission
(index) order, not completion order. -/
theorem C3_parallel_refines_sequential (engine : Nat → Except PyStr ChunkRes)
    (n : Nat) (order : List Nat) :
    (transcribe_parallel_mode engine n order none).outcome
      = (transcribe_sequential_mode engine none n).outcome := by
  rw [transcribe_parallel_none, transcribe_sequential_none]

/-- C2 (code bug evidence): the merge evaluated on a run where the audio
was segmented with a 60-second nominal chunk duration.  The code offsets
chunk 1's segment by the hard-coded `chunk_duration = 30.0`, so the raw
segment `(0, 1)` of chunk 1 is merged to `(30, 31)`, while the claimed
offset `1 * 60` differs: the merge ignores the segmentation-time duration. -/
theorem C2_offset_hardcoded :
    (merge_results [silentRes, sampleRes]).segments
      = [⟨0 + (1 : ℚ) * chunk_duration, 1 + (1 : ℚ) * chunk_duration, ['h', 'i']⟩] ∧
    (1 : ℚ) * chunk_duration ≠ 1 * 60 := by
  constructor
  · rw [merge_results_segments]
    simp [contrib_segs, silentRes, sampleRes, offset_seg]
  · rw [chunk_duration]; norm_num

/-- C10: the summarizer's text chunking loses no content and reorders
nothing: joining the returned chunks with single spaces and re-splitting on
whitespace yields exactly the word sequence of the input, and the returned
chunk list is never empty. -/
theorem C10_roundtrip (text : PyStr) (maxLen : Nat) :
    pysplit (joinWords (chunk_text text maxLen)) = pysplit text ∧
    chunk_text text maxLen ≠ [] := by
  simp only [chunk_text]
  by_cases h : ((chunk_text_go maxLen (pysplit text) [] [] 0).map joinWords).isEmpty
  · rw [if_pos h]
    exact ⟨rfl, by simp⟩
  · rw [if_neg h]
    have hne : ∀ c ∈ chunk_text_go maxLen (pysplit text) [] [] 0, c ≠ [] :=
      chunk_text_go_ne_nil maxLen (pysplit text) [] [] 0 (by intro c hc; cases hc)
    have hflat : flattenL (chunk_text_go maxLen (pysplit text) [] [] 0) = pysplit text := by
      have := chunk_text_go_flatten maxLen (pysplit text) [] [] 0
      simpa [flattenL] using this
    refine ⟨?_, by simpa [List.isEmpty_iff] using h⟩
    rw [joinWords_map_joinWords _ hne, hflat,
      pysplit_joinWords _ (pysplit_mem text)]

/-- C6: for every list of chunk summaries and every `word_limit > 0`, if
the detailed summary (the summaries joined with blank-line separators) has
a word count strictly exceeding `word_limit * 1.2` (as naturals:
`6 * word_limit < 5 * count`), the output is exactly the first
`word_limit` words followed by the ellipsis marker; otherwise it is left
unmodified. -/
theorem C6_length_enforcement (summaries : List PyStr) (word_limit : Nat)
    (hwl : 0 < word_limit) :
    (6 * word_limit < 5 * (pysplit (joinWith blankLineSep summaries)).length →
      trim_detailed_summary (joinWith blankLineSep summaries) word_limit
        = joinWords ((pysplit (joinWith blankLineSep summaries)).take word_limit)
            ++ ellipsisMark
      ∧ ((pysplit (joinWith blankLineSep summaries)).take word_limit).length
          = word_limit) ∧
    (¬ 6 * word_limit < 5 * (pysplit (joinWith blankLineSep summaries)).length →
      trim_detailed_summary (joinWith blankLineSep summaries) word_limit
        = joinWith blankLineSep summaries) := by
  constructor
  · intro h
    have hcond : (word_limit : ℚ) * (12 / 10)
        < ((pysplit (joinWith blankLineSep summaries)).length : ℚ) :=
      (trim_condition word_limit _).mpr h
    refine ⟨?_, ?_⟩
    · simp only [trim_detailed_summary]
      rw [if_pos hcond]
    · rw [List.length_take]
      omega
  · intro h
    have hcond : ¬ (word_limit : ℚ) * (12 / 10)
        < ((pysplit (joinWith blankLineSep summaries)).length : ℚ) :=
      fun hc => h ((trim_condition word_limit _).mp hc)
    simp only [trim_detailed_summary]
    rw [if_neg hcond]

/-- Witness for C6: three one-letter summaries with `word_limit = 1` — the
detailed summary has 3 words, `6 * 1 < 5 * 3`, and the output is the first
word plus the ellipsis. -/
theorem C6_witness :
    trim_detailed_summary (joinWith blankLineSep [['x'], ['y'], ['z']]) 1
      = joinWords ((pysplit (joinWith blankLineSep [['x'], ['y'], ['z']])).take 1)
          ++ ellipsisMark
    ∧ ((pysplit (joinWith blankLineSep [['x'], ['y'], ['z']])).take 1).length = 1 :=
  (C6_length_enforcement [['x'], ['y'], ['z']] 1 (by decide)).1 (by decide)

/-- C8: the key-points list consists of the first sentence of each chunk
summary, kept only when strictly longer than 20 characters, collected in
chunk order and capped at 10 entries; when no sentence qualifies, exactly
the one generic placeholder point is emitted. -/
theorem C8_key_points (summaries : List PyStr) :
    ((summaries.filter fun s => decide (20 < (first_sentence s).length)) = [] →
      extract_key_points summaries = defaultKeyPoint) ∧
    ((summaries.filter fun s => decide (20 < (first_sentence s).length)) ≠ [] →
      extract_key_points summaries
        = joinWith ['\n']
            (((summaries.filter fun s =>
                decide (20 < (first_sentence s).length)).take 10).map
              (fun s => bulletize (first_sentence s)))) := by
  simp only [extract_key_points, key_points_filterMap]
  constructor
  · intro h
    rw [h]
    rfl
  · intro h
    have hne : ¬ ((summaries.filter fun s =>
        decide (20 < (first_sentence s).length)).map
          (fun s => bulletize (first_sentence s))).isEmpty := by
      simp [List.isEmpty_iff, h]
    rw [if_neg hne, ← List.map_take]

/-- Witness for C8: fifteen summaries, each with a qualifying first
sentence, yield exactly 10 key points, in chunk order. -/
theorem C8_witness :
    extract_key_points fifteenSummaries
      = joinWith ['\n']
          (((fifteenSummaries.filter fun s =>
              decide (20 < (first_sentence s).length)).take 10).map
            (fun s => bulletize (first_sentence s)))
    ∧ ((fifteenSummaries.filter fun s =>
          decide (20 < (first_sentence s).length)).take 10).length = 10 :=
  ⟨(C8_key_points fifteenSummaries).2 (by decide), by decide⟩

/- ### Helper lemmas about `pystrip` for the chunking claim -/

theorem dropWhile_head_false (p : Char → Bool) :
    ∀ (s : List Char) (c : Char), (s.dropWhile p).head? = some c → p c = false := by
  intro s
  induction s with
  | nil => intro c h; cases h
  | cons x xs ih =>
    intro c h
    rw [List.dropWhile_cons] at h
    by_cases hx : p x
    · rw [if_pos hx] at h
      exact ih c h
    · rw [if_neg hx] at h
      cases h
      exact Bool.eq_false_iff.mpr hx

theorem pystrip_has_sound_char (s : PyStr) (h : pystrip s ≠ []) :
    ∃ c ∈ pystrip s, c.isWhitespace = false := by
  rw [pystrip] at h ⊢
  cases hv : (s.dropWhile Char.isWhitespace).reverse.dropWhile Char.isWhitespace with
  | nil => rw [hv] at h; exact absurd rfl h
  | cons c cs =>
    refine ⟨c, by simp, ?_⟩
    exact dropWhile_head_false Char.isWhitespace _ c (by rw [hv]; rfl)

theorem pystrip_words_nil (s : PyStr) (h : pysplit (pystrip s) = []) : pystrip s = [] := by
  by_contra hne
  obtain ⟨c, hc, hcw⟩ := pystrip_has_sound_char s hne
  have hall := (pysplitAux_eq_nil (pystrip s) [] h).2 c hc
  rw [hall] at hcw
  cases hcw

/-- C7 (amended): the summarization chunking computes
`target_chunk_count = max(3, word_limit // 100)` and
`max_chunk_chars = max(400, total_word_count // target_chunk_count * 5)`,
and splits the stripped transcript greedily on word boundaries: no word is
ever split across chunks (the chunks' words, concatenated, are exactly the
transcript's words, in order), and every produced chunk either is a single
word of the transcript (which may exceed the cap on its own) or has
character length at most `max_chunk_chars + 1` (the greedy accumulator
admits a one-character overshoot). -/
theorem C7_chunking_amended (transcript : PyStr) (word_limit : Nat) :
    target_chunks word_limit = max 3 (word_limit / 100) ∧
    max_chunk_length (pysplit (pystrip transcript)).length word_limit
      = max 400 ((pysplit (pystrip transcript)).length / target_chunks word_limit * 5) ∧
    flattenL ((summarize_chunking transcript word_limit).map pysplit)
      = pysplit (pystrip transcript) ∧
    ∀ s ∈ summarize_chunking transcript word_limit,
      s.length ≤ max_chunk_length (pysplit (pystrip transcript)).length word_limit + 1
      ∨ s ∈ pysplit (pystrip transcript) := by
  refine ⟨rfl, rfl, ?_⟩
  have hflat : flattenL (chunk_text_go
      (max_chunk_length (pysplit (pystrip transcript)).length word_limit)
      (pysplit (pystrip transcript)) [] [] 0) = pysplit (pystrip transcript) := by
    simpa [flattenL] using chunk_text_go_flatten
      (max_chunk_length (pysplit (pystrip transcript)).length word_limit)
      (pysplit (pystrip transcript)) [] [] 0
  have hsc : summarize_chunking transcript word_limit
      = chunk_text (pystrip transcript)
          (max_chunk_length (pysplit (pystrip transcript)).length word_limit) := rfl
  rw [hsc]
  simp only [chunk_text]
  by_cases h : ((chunk_text_go
      (max_chunk_length (pysplit (pystrip transcript)).length word_limit)
      (pysplit (pystrip transcript)) [] [] 0).map joinWords).isEmpty
  · rw [if_pos h]
    have hcw : chunk_text_go
        (max_chunk_length (pysplit (pystrip transcript)).length word_limit)
        (pysplit (pystrip transcript)) [] [] 0 = [] := by
      rcases List.map_eq_nil_iff.mp (List.isEmpty_iff.mp h) with h'
      exact h'
    have hwnil : pysplit (pystrip transcript) = [] := by
      rw [← hflat, hcw]
      rfl
    have htnil : pystrip transcript = [] := pystrip_words_nil transcript hwnil
    constructor
    · rw [htnil]
      rfl
    · intro s hs
      have hst : s = pystrip transcript := by simpa using hs
      subst hst
      left
      rw [htnil]
      simp
  · rw [if_neg h]
    have hne : ∀ c ∈ chunk_text_go
        (max_chunk_length (pysplit (pystrip transcript)).length word_limit)
        (pysplit (pystrip transcript)) [] [] 0, c ≠ [] :=
      chunk_text_go_ne_nil _ _ [] [] 0 (by intro c hc; cases hc)
    have hmemw : ∀ c ∈ chunk_text_go
        (max_chunk_length (pysplit (pystrip transcript)).length word_limit)
        (pysplit (pystrip transcript)) [] [] 0,
        ∀ w ∈ c, w ≠ [] ∧ WSFree w := fun c hc w hw =>
      pysplit_mem (pystrip transcript) w (hflat ▸ mem_flattenL hc hw)
    constructor
    · rw [List.map_map]
      have hid : (chunk_text_go
          (max_chunk_length (pysplit (pystrip transcript)).length word_limit)
          (pysplit (pystrip transcript)) [] [] 0).map (pysplit ∘ joinWords)
          = chunk_text_go
              (max_chunk_length (pysplit (pystrip transcript)).length word_limit)
              (pysplit (pystrip transcript)) [] [] 0 := by
        refine (List.map_congr_left fun c hc => ?_).trans (List.map_id _)
        exact pysplit_joinWords c (fun w hw => hmemw c hc w hw)
      rw [hid, hflat]
    · intro s hs
      obtain ⟨c, hc, rfl⟩ := List.mem_map.mp hs
      rcases chunk_text_go_bound
          (max_chunk_length (pysplit (pystrip transcript)).length word_limit)
          (pysplit (pystrip transcript)) [] [] 0
          (by intro c hc; cases hc) (fun hcon => absurd rfl hcon) c hc with h1 | h1
      · right
        obtain ⟨w, rfl⟩ := List.length_eq_one.mp h1
        have hwmem : w ∈ pysplit (pystrip transcript) := hflat ▸ mem_flattenL hc (by simp)
        exact hwmem
      · left
        exact h1

/-- Witness for C7: on the transcript `"alpha beta"` with `word_limit =
100`, the produced chunk `"alpha beta"` respects the amended bound. -/
theorem C7_witness :
    ("alpha beta".toList).length
        ≤ max_chunk_length (pysplit (pystrip "alpha beta".toList)).length 100 + 1
      ∨ "alpha beta".toList ∈ pysplit (pystrip "alpha beta".toList) :=
  (C7_chunking_amended "alpha beta".toList 100).2.2.2 "alpha beta".toList (by decide)

set_option maxRecDepth 100000

/-- C7 counterexample: a transcript that is one 401-character word.  The
derived `max_chunk_chars` is 400, yet the single produced chunk has length
401 — the claim "no produced chunk's character length exceeds
max_chunk_chars" is false as stated. -/
theorem C7_counterexample :
    summarize_chunking cexTranscript 800 = [cexTranscript] ∧
    max_chunk_length (pysplit (pystrip cexTranscript)).length 800 = 400 ∧
    400 < cexTranscript.length := by
  refine ⟨by decide, by decide, by decide⟩

/-- C5: when the engine raises on exactly one chunk `i` (in either mode,
with no cancellation), the job still completes with a merged transcript,
and that transcript carries the contributions of all other chunks in index
order — the failed chunk contributes nothing, and a single chunk's failure
never aborts the job. -/
theorem C5_single_failure (engine : Nat → Except PyStr ChunkRes) (r : Nat → ChunkRes)
    (e : PyStr) (n i : Nat) (order : List Nat) (hi : i < n)
    (herr : engine i = .error e)
    (hok : ∀ j, j ≠ i → engine j = .ok (r j)) :
    ∃ m : Merged,
      (transcribe_sequential_mode engine none n).outcome = .finished m ∧
      (transcribe_parallel_mode engine n order none).outcome = .finished m ∧
      m.text = joinWords
        ((((List.range n).filter fun j => decide (j ≠ i)).filter
            fun j => !(r j).text.isEmpty).map fun j => (r j).text) ∧
      m.segments = flattenL
        ((((List.range n).filter fun j => decide (j ≠ i)).filter
            fun j => !(r j).text.isEmpty).map
          fun j => (r j).segments.map (offset_seg ((j : ℚ) * chunk_duration))) := by
  have hfilter : (List.range' 0 n).filter
        (fun j => !(subst_result (engine j)).text.isEmpty)
      = ((List.range' 0 n).filter fun j => decide (j ≠ i)).filter
          fun j => !(r j).text.isEmpty := by
    rw [List.filter_filter]
    refine List.filter_congr fun j hj => ?_
    by_cases hji : j = i
    · subst hji
      rw [herr]
      simp [subst_result]
    · rw [hok j hji]
      simp [subst_result, hji]
  have hmapfix : ∀ {α : Type} (f g : Nat → α),
      (∀ j, (!(r j).text.isEmpty && decide (j ≠ i)) = true → f j = g j) →
      (((List.range' 0 n).filter fun j => !(r j).text.isEmpty && decide (j ≠ i)).map f)
        = ((List.range' 0 n).filter fun j => !(r j).text.isEmpty && decide (j ≠ i)).map g := by
    intro α f g hfg
    refine List.map_congr_left fun j hj => hfg j (List.mem_filter.mp hj).2
  refine ⟨merge_results ((List.range n).map fun j => subst_result (engine j)),
    ?_, ?_, ?_, ?_⟩
  · rw [transcribe_sequential_none]
  · rw [transcribe_parallel_none]
  · rw [merge_results_text, List.range_eq_range', contrib_texts_map_range', hfilter,
      List.filter_filter]
    refine congrArg joinWords ?_
    refine hmapfix _ _ fun j hj => ?_
    have hji : j ≠ i := by
      simp only [Bool.and_eq_true, decide_eq_true_eq] at hj
      exact hj.2
    rw [hok j hji]
    rfl
  · rw [merge_results_segments, List.range_eq_range', contrib_segs_map_range', hfilter,
      List.filter_filter]
    refine congrArg flattenL ?_
    refine hmapfix _ _ fun j hj => ?_
    have hji : j ≠ i := by
      simp only [Bool.and_eq_true, decide_eq_true_eq] at hj
      exact hj.2
    rw [hok j hji]
    rfl

/-- Witness for C5: five chunks, the engine raising on chunk 2; the job
completes in both modes with the other chunks' contributions in order. -/
theorem C5_witness :
    ∃ m : Merged,
      (transcribe_sequential_mode failAtTwo none 5).outcome = .finished m ∧
      (transcribe_parallel_mode failAtTwo 5 [0, 1, 2, 3, 4] none).outcome = .finished m ∧
      m.text = joinWords
        ((((List.range 5).filter fun j => decide (j ≠ 2)).filter
            fun j => !((fun _ => sampleRes) j).text.isEmpty).map
          fun j => ((fun _ => sampleRes) j).text) ∧
      m.segments = flattenL
        ((((List.range 5).filter fun j => decide (j ≠ 2)).filter
            fun j => !((fun _ => sampleRes) j).text.isEmpty).map
          fun j => ((fun _ => sampleRes) j).segments.map
            (offset_seg ((j : ℚ) * chunk_duration))) :=
  C5_single_failure failAtTwo (fun _ => sampleRes) "boom".toList 5 2 [0, 1, 2, 3, 4]
    (by omega) (by rfl) (fun j hj => by simp [failAtTwo, hj])

/-- C1 (amended): in Sequential mode, once cancellation is requested (at
checkpoint `t ≤ n`), exactly the chunks `0..t-1` have been dispatched — no
chunk with index greater than the one in flight at request time — and the
call raises the cancellation signal.  In Parallel mode, however, all `n`
chunk tasks are submitted to the pool up front and every chunk is
dispatched to the engine regardless of when cancellation is requested;
results of tasks completing at or after the request are discarded
(substituted by empty error results inside the future loop), and the call
still terminates with the cancellation signal, never returning a
MergedTranscript. -/
theorem C1_cancellation_amended (engine : Nat → Except PyStr ChunkRes)
    (n t : Nat) (order : List Nat) (ht : t ≤ n) :
    (transcribe_sequential_mode engine (some t) n).dispatched = List.range t ∧
    (transcribe_sequential_mode engine (some t) n).outcome = .cancelled ∧
    (transcribe_parallel_mode engine n order (some t)).dispatched = List.range n ∧
    (transcribe_parallel_mode engine n order (some t)).outcome = .cancelled := by
  obtain ⟨h1, h2⟩ := seq_go_cancel engine n t ht t 0 [] [] (by omega)
  refine ⟨?_, h2, rfl, ?_⟩
  · show (seq_go engine (some t) n 0 [] []).dispatched = List.range t
    rw [h1, List.range_eq_range']
    rfl
  · have hcc : is_cancelled (some t) (n + 1) = true := by
      simp only [is_cancelled, decide_eq_true_eq]
      omega
    simp [transcribe_parallel_mode, hcc]

/-- Witness for C1 (amended): two chunks, cancellation requested before the
first checkpoint is reached in sequential mode (`t = 1`). -/
theorem C1_witness :
    (transcribe_sequential_mode sampleEngine (some 1) 2).dispatched = List.range 1 ∧
    (transcribe_sequential_mode sampleEngine (some 1) 2).outcome = .cancelled ∧
    (transcribe_parallel_mode sampleEngine 2 [0, 1] (some 1)).dispatched = List.range 2 ∧
    (transcribe_parallel_mode sampleEngine 2 [0, 1] (some 1)).outcome = .cancelled :=
  C1_cancellation_amended sampleEngine 2 1 [0, 1] (by omega)

/-- C1 counterexample: four chunks, two pool workers, cancellation
requested before the first completion (`t = 1`).  Only chunks 0 and 1 can
be in flight at request time, yet chunks 2 and 3 are still dispatched to
the engine: the claim "no chunk with index greater than the one in flight
at request time is dispatched" is false in Parallel mode (the call does
terminate with the cancellation signal). -/
theorem C1_counterexample :
    (transcribe_parallel_mode sampleEngine 4 [0, 1, 2, 3] (some 1)).dispatched
      = [0, 1, 2, 3] ∧
    started_before_request 2 1 4 = [0, 1] ∧
    3 ∈ (transcribe_parallel_mode sampleEngine 4 [0, 1, 2, 3] (some 1)).dispatched ∧
    (∀ j ∈ started_before_request 2 1 4, j < 3) ∧
    (transcribe_parallel_mode sampleEngine 4 [0, 1, 2, 3] (some 1)).outcome
      = .cancelled := by
  refine ⟨by decide, by decide, by decide, by decide, ?_⟩
  have hcc : is_cancelled (some 1) (4 + 1) = true := by decide
  simp [transcribe_parallel_mode, hcc]

/-- C9: for every job with `n ≥ 1` chunks and every interleaving of task
completions (each completion event either reporting the incremented
counter or failing silently), the derived progress percentages emitted
over the lifetime of the job form a non-decreasing sequence, in both
Sequential and Parallel transcription modes. -/
theorem C9_progress_monotone (n : Nat) (events : List Bool) (hn : 0 < n)
    (he : events.length = n) :
    List.Chain' (· ≤ ·) (seq_progress_list n) ∧
    List.Chain' (· ≤ ·) (par_progress_list n events) := by
  have hrest : List.Chain' (· ≤ ·) (chunk_pct n n :: [70, 75, 85, 100]) := by
    rw [chunk_pct_self n hn]
    refine List.Chain'.cons (by omega) (List.Chain'.cons (by omega)
      (List.Chain'.cons (by omega) (List.Chain'.cons (by omega) ?_)))
    exact List.chain'_singleton 100
  constructor
  · show List.Chain' (· ≤ ·)
      (2 :: 5 :: 10 :: (15 :: ((List.range n).map (fun i => chunk_pct i n)
        ++ chunk_pct n n :: [70, 75, 85, 100])))
    refine List.Chain'.cons (by omega) (List.Chain'.cons (by omega)
      (List.Chain'.cons (by omega) ?_))
    refine chain_le_glue _ _ 15 (chunk_pct n n) ?_ ?_ ?_ ?_ hrest
    · rw [List.chain'_map]
      cases n with
      | zero => exact List.chain'_nil
      | succ m =>
        exact (List.chain'_range_succ _ m).mpr fun k _ => chunk_pct_mono _ (by omega)
    · intro k hk
      obtain ⟨j, hj, rfl⟩ := List.mem_map.mp hk
      exact chunk_pct_mono n (le_of_lt (List.mem_range.mp hj))
    · exact chunk_pct_ge_15 n n
    · intro y hy
      obtain ⟨j, _, rfl⟩ := List.mem_map.mp (List.mem_of_mem_head? hy)
      exact chunk_pct_ge_15 j n
  · show List.Chain' (· ≤ ·)
      (2 :: 5 :: 10 :: (15 :: ((par_counts events 0).map (fun c => chunk_pct c n)
        ++ chunk_pct n n :: [70, 75, 85, 100])))
    refine List.Chain'.cons (by omega) (List.Chain'.cons (by omega)
      (List.Chain'.cons (by omega) ?_))
    refine chain_le_glue _ _ 15 (chunk_pct n n) ?_ ?_ ?_ ?_ hrest
    · rw [List.chain'_map]
      exact (par_counts_chain events 0).imp fun a b hab => chunk_pct_mono n hab
    · intro k hk
      obtain ⟨c, hc, rfl⟩ := List.mem_map.mp hk
      have := (par_counts_mem events 0 c hc).2
      exact chunk_pct_mono n (by omega)
    · exact chunk_pct_ge_15 n n
    · intro y hy
      obtain ⟨c, _, rfl⟩ := List.mem_map.mp (List.mem_of_mem_head? hy)
      exact chunk_pct_ge_15 c n

/-- Witness for C9: a three-chunk job whose parallel run has two
successful completions and one failing task. -/
theorem C9_witness :
    List.Chain' (· ≤ ·) (seq_progress_list 3) ∧
    List.Chain' (· ≤ ·) (par_progress_list 3 [true, true, false]) :=
  C9_progress_monotone 3 [true, true, false] (by omega) (by rfl)

/-- Witness for C10: the chunking round-trip evaluated on a concrete
two-word text. -/
theorem C10_witness :
    pysplit (joinWords (chunk_text "alpha beta".toList 400)) = pysplit "alpha beta".toList ∧
    chunk_text "alpha beta".toList 400 ≠ [] :=
  C10_roundtrip "alpha beta".toList 400
